import Mathlib

/-!
Shallow embedding of `scripts/update_data.py` from the geo-hair-explorer
repository, together with theorems settling the specification claims.

Strings are modelled as `List Char`; Python's substring test `kw in s`
becomes `containsSub`, `str.lower()` becomes `lowerStr`, and the two
`re.findall` extractions of `clean_pubmed_ids` become explicit scanners.
External collaborators (the Entrez search/fetch transport and the MiniMax
summarization HTTP call) are inputs: the candidate id list and summary
records are parameters of `main`, and the summarization response is a
parameter of `generate_ai_summary`.
-/

namespace GeoHair

/-- `SEARCH_CONFIG["require_keywords"]` from the source. -/
def require_keywords : List (List Char) :=
  (["hair follicle", "hair growth", "hair loss", "hair cycle",
    "hair shaft", "hair bulb", "hair root", "hair stem",
    "alopecia", "baldness", "dermal papilla", "hair keratinocyte",
    "anagen", "catagen", "telogen", "trichocyte", "pilosebaceous",
    "hair greying", "hair graying", "scalp", "androgenetic",
    "outer root sheath", "inner root sheath", "hair matrix"] : List String).map String.data

/-- `SEARCH_CONFIG["exclude_keywords"]` from the source. -/
def exclude_keywords : List (List Char) :=
  (["ovary", "ovarian", "oocyte", "granulosa", "cumulus",
    "antral follicle", "primordial follicle", "follicular fluid",
    "oogenesis", "corpus luteum", "theca cell", "preantral",
    "preovulatory", "ovulation", "IVF", "in vitro fertilization",
    "embryo", "blastocyst", "uterus", "uterine", "endometrium",
    "placenta", "follicle-stimulating hormone", "FSH",
    "thyroid follicle", "lymphoid follicle", "dental follicle",
    "salivary gland", "lymph node", "germinal center"] : List String).map String.data

/-- Python `str.lower()` on the ASCII range (characterwise lowering). -/
def lowerStr (s : List Char) : List Char := s.map Char.toLower

/-- Python's substring containment test `needle in hay`. -/
def containsSub (needle : List Char) : List Char → Bool
  | [] => decide (needle = [])
  | c :: cs => needle.isPrefixOf (c :: cs) || containsSub needle cs

/-- A candidate summary record as returned by `Entrez.esummary` (the
fields `update_data.py` reads, with Python's `.get` defaults absorbed
into total fields; `PubMedIds` already element-wise `str`-ed). -/
structure CandidateRecord where
  Accession : List Char
  title : List Char
  summary : List Char
  taxon : List Char
  n_samples : Nat
  GPL : List Char
  PubMedIds : List (List Char)
  PDAT : List Char
deriving DecidableEq

/-- The haystack of `passes_filter`:
`title.lower() + " " + summary.lower()`. -/
def haystack (record : CandidateRecord) : List Char :=
  lowerStr record.title ++ ' ' :: lowerStr record.summary

/-- `passes_filter` from the source. -/
def passes_filter (record : CandidateRecord) : Bool :=
  let combined := haystack record
  let has_required := require_keywords.any fun kw => containsSub kw combined
  if has_required = false then false
  else
    let has_excluded := exclude_keywords.any fun kw => containsSub kw combined
    if has_excluded = true then false
    else true

/-- Accumulator scanner for `re.findall(r'\d+', s)`: maximal runs of
decimal digits, left to right (`cur` holds the current run reversed). -/
def findRunsAux : List Char → List Char → List (List Char)
  | [], cur => if cur = [] then [] else [cur.reverse]
  | c :: cs, cur =>
    if c.isDigit then findRunsAux cs (c :: cur)
    else if cur = [] then findRunsAux cs []
    else cur.reverse :: findRunsAux cs []

/-- `re.findall(r'\d+', s)`. -/
def findRuns (s : List Char) : List (List Char) := findRunsAux s []

/-- The literal part of the pattern `IntegerElement\((\d+)`. -/
def iePat : List Char := "IntegerElement(".data

/-- Fuel-indexed scanner for `re.findall(r'IntegerElement\((\d+)', s)`:
at each position, if the literal `IntegerElement(` is a prefix and at
least one digit follows, capture the maximal digit run and resume after
it; otherwise advance one character. -/
def findIEAux : Nat → List Char → List (List Char)
  | 0, _ => []
  | _ + 1, [] => []
  | fuel + 1, c :: cs =>
    if iePat.isPrefixOf (c :: cs) then
      let rest := (c :: cs).drop iePat.length
      let run := rest.takeWhile Char.isDigit
      if run = [] then findIEAux fuel cs
      else run :: findIEAux fuel (rest.dropWhile Char.isDigit)
    else findIEAux fuel cs

/-- `re.findall(r'IntegerElement\((\d+)', s)`. -/
def findIE (s : List Char) : List (List Char) := findIEAux s.length s

/-- `clean_pubmed_ids` from the source: empty input maps to the empty
string; otherwise the `IntegerElement(` captures joined with `"; "` if
any, else all digit runs joined with `"; "` if any, else the input
itself. -/
def clean_pubmed_ids (pubmed_str : List Char) : List Char :=
  if pubmed_str = [] then []
  else
    let numbers := findIE pubmed_str
    if numbers ≠ [] then List.intercalate "; ".data numbers
    else
      let numbers2 := findRuns pubmed_str
      if numbers2 ≠ [] then List.intercalate "; ".data numbers2
      else pubmed_str

/-- Outcome of the MiniMax HTTP call in `generate_ai_summary`: an
exception (timeout, network failure), or a response with a status code
and, when the JSON payload yields `choices[0].message.content`, that
content (`none` models a payload whose extraction raises, which the
surrounding `try` catches). -/
inductive HttpOutcome where
  | exn : HttpOutcome
  | ok (status : Nat) (payload : Option (List Char)) : HttpOutcome
deriving DecidableEq

/-- Scan for the earliest `</think>` and return the remainder after it,
if any (the non-greedy `.*?</think>` part of the cleanup regex). -/
def dropThroughClose : List Char → Option (List Char)
  | [] => none
  | c :: cs =>
    if ("</think>".data).isPrefixOf (c :: cs) then some ((c :: cs).drop 8)
    else dropThroughClose cs

/-- Fuel-indexed model of
`re.sub(r'<think>.*?</think>', '', content, flags=re.DOTALL)`:
each minimal `<think>...</think>` span is removed; an unterminated
`<think>` is kept verbatim. -/
def removeThinkAux : Nat → List Char → List Char
  | 0, s => s
  | _ + 1, [] => []
  | fuel + 1, c :: cs =>
    if ("<think>".data).isPrefixOf (c :: cs) then
      match dropThroughClose ((c :: cs).drop 7) with
      | some rest => removeThinkAux fuel rest
      | none => c :: removeThinkAux fuel cs
    else c :: removeThinkAux fuel cs

/-- The `<think>` tag cleanup applied to a successful response. -/
def removeThink (s : List Char) : List Char := removeThinkAux s.length s

/-- Python `str.strip()` (whitespace from both ends). -/
def stripWs (s : List Char) : List Char :=
  ((s.dropWhile Char.isWhitespace).reverse.dropWhile Char.isWhitespace).reverse

/-- `generate_ai_summary` from the source, with the HTTP call's outcome
as an explicit input: no API key or any failure (exception, non-200
status, unextractable payload) yields the empty string; a successful
response yields the content with `<think>` spans removed and stripped. -/
def generate_ai_summary (apiKey : List Char) (resp : HttpOutcome) : List Char :=
  if apiKey = [] then []
  else
    match resp with
    | .exn => []
    | .ok status payload =>
      if status = 200 then
        match payload with
        | none => []
        | some content => stripWs (removeThink content)
      else []

/-- The summarization collaborator failed or its key is absent: the
conditions under which `generate_ai_summary` returns the empty string
without a successful completion. -/
def aiFails (apiKey : List Char) (resp : HttpOutcome) : Prop :=
  apiKey = [] ∨ resp = .exn ∨ ∃ st p, resp = .ok st p ∧ st ≠ 200

/-- The persisted record shape built by `parse_record`. -/
structure CuratedRecord where
  Accession : List Char
  Title : List Char
  Organism : List Char
  Data_Type : List Char
  Sample_Count : Nat
  Platform : List Char
  Country : List Char
  Lab : List Char
  Institute : List Char
  Contributors : List Char
  PubMed_IDs : List Char
  Supplementary_Size : List Char
  Summary : List Char
  Overall_Design : List Char
  AI_Summary_CN : List Char
  AI_Summary : List Char
  GEO_Link : List Char
  Submission_Date : List Char
deriving DecidableEq

/-- The dictionary `parse_record` returns for a record that passed the
`GSE` prefix test; `ai` is the summarization collaborator
(title, summary, data type, to summary text). -/
def curatedOf (ai : List Char → List Char → List Char → List Char)
    (record : CandidateRecord) : CuratedRecord :=
  let accession := record.Accession
  let pubmed_str0 :=
    if record.PubMedIds = [] then [] else List.intercalate "; ".data record.PubMedIds
  let pubmed_str := clean_pubmed_ids pubmed_str0
  let data_type := "bulk RNA-seq".data
  let title := record.title
  let summary := record.summary
  let ai_summary := ai title summary data_type
  { Accession := accession
    Title := title
    Organism := record.taxon
    Data_Type := data_type
    Sample_Count := record.n_samples
    Platform := record.GPL
    Country := []
    Lab := []
    Institute := []
    Contributors := []
    PubMed_IDs := pubmed_str
    Supplementary_Size := "N/A".data
    Summary := summary
    Overall_Design := []
    AI_Summary_CN := ai_summary
    AI_Summary := ai_summary
    GEO_Link := "https://www.ncbi.nlm.nih.gov/geo/query/acc.cgi?acc=".data ++ accession
    Submission_Date := record.PDAT }

/-- `parse_record` from the source: `None` when the accession does not
start with `GSE`, otherwise the curated dictionary. -/
def parse_record (ai : List Char → List Char → List Char → List Char)
    (record : CandidateRecord) : Option CuratedRecord :=
  if ("GSE".data).isPrefixOf record.Accession = false then none
  else some (curatedOf ai record)

/-- State of `main`'s candidate loop: the in-memory corpus
(`existing_data`), the accession set (`existing_accessions`, modelled
as a list tested with membership), and `new_count`. -/
structure RunState where
  corpus : List CuratedRecord
  accessions : List (List Char)
  newCount : Nat
deriving DecidableEq

/-- One iteration of `main`'s `for record in summaries` loop: skip a
known accession, skip a non-`GSE` accession, skip a filter reject;
otherwise parse and, if a dictionary came back, prepend it to the
corpus, register the accession, and count the insertion. -/
def step (ai : List Char → List Char → List Char → List Char)
    (st : RunState) (record : CandidateRecord) : RunState :=
  let accession := record.Accession
  if accession ∈ st.accessions then st
  else if ("GSE".data).isPrefixOf accession = false then st
  else if passes_filter record = false then st
  else
    match parse_record ai record with
    | none => st
    | some parsed =>
      { corpus := parsed :: st.corpus
        accessions := accession :: st.accessions
        newCount := st.newCount + 1 }

/-- Observable outcome of one `main` run: whether the search call
happened, whether the summary fetch happened, whether `save_data` was
invoked, the content of the persisted corpus file after the run, and
the reported insertion count. -/
structure MainOutcome where
  searched : Bool
  fetched : Bool
  saved : Bool
  persisted : List CuratedRecord
  newCount : Nat
deriving DecidableEq

/-- `main` from the source, with the external collaborators as inputs:
`email` is `NCBI_EMAIL`, `existing` the loaded corpus, `idList` the
`search_geo` result, `summaries` the `fetch_summaries` result, and `ai`
the summarization collaborator. Missing email aborts with no effect; an
empty id list ends the run after the search; otherwise the candidate
loop runs and the corpus is saved exactly when `new_count > 0`. -/
def main (email : List Char) (existing : List CuratedRecord)
    (idList : List (List Char)) (summaries : List CandidateRecord)
    (ai : List Char → List Char → List Char → List Char) : MainOutcome :=
  if email = [] then
    { searched := false, fetched := false, saved := false
      persisted := existing, newCount := 0 }
  else if idList = [] then
    { searched := true, fetched := false, saved := false
      persisted := existing, newCount := 0 }
  else
    let st0 : RunState := ⟨existing, existing.map (·.Accession), 0⟩
    let st := summaries.foldl (step ai) st0
    if 0 < st.newCount then
      { searched := true, fetched := true, saved := true
        persisted := st.corpus, newCount := st.newCount }
    else
      { searched := true, fetched := true, saved := false
        persisted := existing, newCount := st.newCount }

/-- The records the candidate loop inserts, in processing order, when
started with accession set `accs`. -/
def insertedRecs (ai : List Char → List Char → List Char → List Char)
    (accs : List (List Char)) : List CandidateRecord → List CuratedRecord
  | [] => []
  | record :: rest =>
    if record.Accession ∈ accs then insertedRecs ai accs rest
    else if ("GSE".data).isPrefixOf record.Accession = false then insertedRecs ai accs rest
    else if passes_filter record = false then insertedRecs ai accs rest
    else
      match parse_record ai record with
      | none => insertedRecs ai accs rest
      | some parsed => parsed :: insertedRecs ai (record.Accession :: accs) rest

/-- A candidate the loop skips for state-independent reasons: its
accession does not start with `GSE`, or the keyword filter rejects it. -/
def skipIndep (record : CandidateRecord) : Prop :=
  ("GSE".data).isPrefixOf record.Accession = false ∨ passes_filter record = false

/-- The summarization collaborator of a run with no MiniMax key: it
always produces the empty summary. -/
def aiEmpty : List Char → List Char → List Char → List Char :=
  fun _ _ _ => []

/-- Concrete in-domain candidate A (for witnesses). -/
def candA : CandidateRecord :=
  { Accession := "GSE100001".data
    title := "Hair follicle dermal papilla atlas".data
    summary := "Study of anagen hair growth".data
    taxon := "Homo sapiens".data
    n_samples := 4
    GPL := "GPL24676".data
    PubMedIds := ["38000001".data]
    PDAT := "2025/09/01".data }

/-- Concrete in-domain candidate B (for witnesses). -/
def candB : CandidateRecord :=
  { Accession := "GSE100002".data
    title := "Scalp biopsy in androgenetic alopecia".data
    summary := "Expression profiling of baldness".data
    taxon := "Homo sapiens".data
    n_samples := 6
    GPL := "GPL24676".data
    PubMedIds := []
    PDAT := "2025/09/02".data }

/-- Concrete candidate whose haystack holds both a require-keyword
(`hair follicle`) and an exclude-keyword (`ovary`). -/
def candBoth : CandidateRecord :=
  { Accession := "GSE100003".data
    title := "Hair follicle and ovary comparison".data
    summary := "Cross tissue study".data
    taxon := "Mus musculus".data
    n_samples := 2
    GPL := "GPL24247".data
    PubMedIds := []
    PDAT := "2025/09/03".data }

/-- Concrete candidate whose accession is `GSEabc`: the `GSE` prefix
with no digits after it. -/
def candGSEabc : CandidateRecord :=
  { Accession := "GSEabc".data
    title := "Hair follicle stem cell dynamics".data
    summary := "Telogen to anagen transition".data
    taxon := "Mus musculus".data
    n_samples := 3
    GPL := "GPL19057".data
    PubMedIds := []
    PDAT := "2025/09/04".data }

/-! ### Basic characterizations -/

/-- `containsSub` is Python's substring test: it holds exactly on
infixes. -/
theorem containsSub_iff (needle : List Char) (hay : List Char) :
    containsSub needle hay = true ↔ needle <:+: hay := by
  induction hay with
  | nil => simp [containsSub]
  | cons c cs ih => simp [containsSub, List.infix_cons_iff, ih]

theorem curatedOf_Accession (ai : List Char → List Char → List Char → List Char)
    (record : CandidateRecord) : (curatedOf ai record).Accession = record.Accession := rfl

theorem parse_record_of_GSE (ai : List Char → List Char → List Char → List Char)
    (record : CandidateRecord)
    (h : ("GSE".data).isPrefixOf record.Accession = true) :
    parse_record ai record = some (curatedOf ai record) := by
  simp [parse_record, h]

/-! ### Loop-step lemmas -/

theorem step_of_mem (ai : List Char → List Char → List Char → List Char)
    (st : RunState) (record : CandidateRecord)
    (h : record.Accession ∈ st.accessions) : step ai st record = st := by
  simp [step, h]

theorem step_of_skip (ai : List Char → List Char → List Char → List Char)
    (st : RunState) (record : CandidateRecord)
    (h : skipIndep record) : step ai st record = st := by
  by_cases hmem : record.Accession ∈ st.accessions
  · simp [step, hmem]
  · rcases h with h | h
    · simp [step, hmem, h]
    · by_cases hpre : ("GSE".data).isPrefixOf record.Accession = false
      · simp [step, hmem, hpre]
      · simp [step, hmem, hpre, h]

theorem step_insert (ai : List Char → List Char → List Char → List Char)
    (st : RunState) (record : CandidateRecord)
    (hmem : record.Accession ∉ st.accessions)
    (hpre : ("GSE".data).isPrefixOf record.Accession = true)
    (hfil : passes_filter record = true) :
    step ai st record =
      ⟨curatedOf ai record :: st.corpus, record.Accession :: st.accessions,
        st.newCount + 1⟩ := by
  simp [step, hmem, hpre, hfil, parse_record]

/-- Every application of `step` is either a skip (state unchanged, with
the reason) or an insertion. -/
theorem step_cases (ai : List Char → List Char → List Char → List Char)
    (st : RunState) (record : CandidateRecord) :
    (step ai st record = st ∧
      (record.Accession ∈ st.accessions ∨ skipIndep record)) ∨
    (record.Accession ∉ st.accessions ∧ passes_filter record = true ∧
      step ai st record =
        ⟨curatedOf ai record :: st.corpus, record.Accession :: st.accessions,
          st.newCount + 1⟩) := by
  by_cases hmem : record.Accession ∈ st.accessions
  · exact Or.inl ⟨step_of_mem ai st record hmem, Or.inl hmem⟩
  · by_cases hpre : ("GSE".data).isPrefixOf record.Accession = false
    · exact Or.inl ⟨step_of_skip ai st record (Or.inl hpre), Or.inr (Or.inl hpre)⟩
    · by_cases hfil : passes_filter record = false
      · exact Or.inl ⟨step_of_skip ai st record (Or.inr hfil), Or.inr (Or.inr hfil)⟩
      · have hpre' : ("GSE".data).isPrefixOf record.Accession = true := by
          cases h : ("GSE".data).isPrefixOf record.Accession <;> simp_all
        have hfil' : passes_filter record = true := by
          cases h : passes_filter record <;> simp_all
        exact Or.inr ⟨hmem, hfil', step_insert ai st record hmem hpre' hfil'⟩

theorem accessions_subset_step (ai : List Char → List Char → List Char → List Char)
    (st : RunState) (record : CandidateRecord) :
    st.accessions ⊆ (step ai st record).accessions := by
  rcases step_cases ai st record with ⟨he, _⟩ | ⟨_, _, he⟩
  · rw [he]; exact fun _ h => h
  · rw [he]; exact List.subset_cons_self _ _

theorem step_newCount_le (ai : List Char → List Char → List Char → List Char)
    (st : RunState) (record : CandidateRecord) :
    st.newCount ≤ (step ai st record).newCount := by
  rcases step_cases ai st record with ⟨he, _⟩ | ⟨_, _, he⟩
  · rw [he]
  · rw [he]; exact Nat.le_succ _

theorem step_eq_of_newCount (ai : List Char → List Char → List Char → List Char)
    (st : RunState) (record : CandidateRecord)
    (h : (step ai st record).newCount = st.newCount) :
    step ai st record = st ∧
      (record.Accession ∈ st.accessions ∨ skipIndep record) := by
  rcases step_cases ai st record with ⟨he, hw⟩ | ⟨_, _, he⟩
  · exact ⟨he, hw⟩
  · rw [he] at h; exact absurd h (by simp)

/-! ### Fold lemmas -/

theorem foldl_accessions_subset (ai : List Char → List Char → List Char → List Char)
    (l : List CandidateRecord) : ∀ st : RunState,
    st.accessions ⊆ (l.foldl (step ai) st).accessions := by
  induction l with
  | nil => intro st; exact fun _ h => h
  | cons r rest ih =>
      intro st
      simp only [List.foldl_cons]
      exact fun x hx => ih (step ai st r) (accessions_subset_step ai st r hx)

theorem foldl_newCount_le (ai : List Char → List Char → List Char → List Char)
    (l : List CandidateRecord) : ∀ st : RunState,
    st.newCount ≤ (l.foldl (step ai) st).newCount := by
  induction l with
  | nil => intro st; exact Nat.le_refl _
  | cons r rest ih =>
      intro st
      simp only [List.foldl_cons]
      exact Nat.le_trans (step_newCount_le ai st r) (ih (step ai st r))

/-- Every candidate of the loop is either state-independently skipped or
its accession ends up in the final accession set. -/
theorem mem_or_skip (ai : List Char → List Char → List Char → List Char)
    (l : List CandidateRecord) : ∀ st : RunState, ∀ record ∈ l,
    skipIndep record ∨
      record.Accession ∈ (l.foldl (step ai) st).accessions := by
  induction l with
  | nil => intro st record h; cases h
  | cons r rest ih =>
      intro st record hr
      simp only [List.foldl_cons]
      rcases List.mem_cons.mp hr with rfl | hr'
      · by_cases hmem : record.Accession ∈ st.accessions
        · exact Or.inr (foldl_accessions_subset ai rest (step ai st record)
            (accessions_subset_step ai st record hmem))
        · by_cases hpre : ("GSE".data).isPrefixOf record.Accession = false
          · exact Or.inl (Or.inl hpre)
          · by_cases hfil : passes_filter record = false
            · exact Or.inl (Or.inr hfil)
            · have hpre' : ("GSE".data).isPrefixOf record.Accession = true := by
                cases h : ("GSE".data).isPrefixOf record.Accession <;> simp_all
              have hfil' : passes_filter record = true := by
                cases h : passes_filter record <;> simp_all
              have hin : record.Accession ∈ (step ai st record).accessions := by
                rw [step_insert ai st record hmem hpre' hfil']
                exact List.mem_cons_self _ _
              exact Or.inr (foldl_accessions_subset ai rest (step ai st record) hin)
      · exact ih (step ai st r) record hr'

/-- If every candidate is skipped (state-independently or because its
accession is already known), the loop leaves the state unchanged. -/
theorem foldl_id_of (ai : List Char → List Char → List Char → List Char)
    (l : List CandidateRecord) : ∀ st : RunState,
    (∀ record ∈ l, skipIndep record ∨ record.Accession ∈ st.accessions) →
    l.foldl (step ai) st = st := by
  induction l with
  | nil => intro st _; rfl
  | cons r rest ih =>
      intro st h
      have h0 : step ai st r = st := by
        rcases h r (List.mem_cons_self r rest) with hs | hm
        · exact step_of_skip ai st r hs
        · exact step_of_mem ai st r hm
      simp only [List.foldl_cons, h0]
      exact ih st fun record hr => h record (List.mem_cons_of_mem r hr)

/-- If the loop inserted nothing, every candidate was skipped for a
reason already visible in the initial state. -/
theorem mem_or_skip_of_count (ai : List Char → List Char → List Char → List Char)
    (l : List CandidateRecord) : ∀ st : RunState,
    (l.foldl (step ai) st).newCount = st.newCount →
    ∀ record ∈ l, skipIndep record ∨ record.Accession ∈ st.accessions := by
  induction l with
  | nil => intro st _ record h; cases h
  | cons r rest ih =>
      intro st hcount record hr
      simp only [List.foldl_cons] at hcount
      have h1 : st.newCount ≤ (step ai st r).newCount := step_newCount_le ai st r
      have h2 : (step ai st r).newCount ≤
          (rest.foldl (step ai) (step ai st r)).newCount :=
        foldl_newCount_le ai rest (step ai st r)
      have heq : (step ai st r).newCount = st.newCount :=
        Nat.le_antisymm (hcount ▸ h2) h1
      obtain ⟨hstep, hor⟩ := step_eq_of_newCount ai st r heq
      rcases List.mem_cons.mp hr with rfl | hr'
      · exact hor.symm
      · rw [hstep] at hcount
        exact ih st hcount record hr'

/-! ### State invariants -/

/-- The accession set mirrors the corpus (the consistency `main` sets up
before the loop and `step` maintains). -/
def Inv (st : RunState) : Prop :=
  st.accessions = st.corpus.map (·.Accession)

theorem inv_step (ai : List Char → List Char → List Char → List Char)
    (st : RunState) (record : CandidateRecord) (h : Inv st) :
    Inv (step ai st record) := by
  rcases step_cases ai st record with ⟨he, _⟩ | ⟨_, _, he⟩
  · rw [he]; exact h
  · rw [he]
    show record.Accession :: st.accessions =
      (curatedOf ai record :: st.corpus).map (·.Accession)
    rw [List.map_cons, curatedOf_Accession, h]

theorem inv_foldl (ai : List Char → List Char → List Char → List Char)
    (l : List CandidateRecord) : ∀ st : RunState, Inv st →
    Inv (l.foldl (step ai) st) := by
  induction l with
  | nil => intro st h; exact h
  | cons r rest ih =>
      intro st h
      simp only [List.foldl_cons]
      exact ih (step ai st r) (inv_step ai st r h)

theorem nodup_step (ai : List Char → List Char → List Char → List Char)
    (st : RunState) (record : CandidateRecord)
    (h : st.accessions.Nodup) : (step ai st record).accessions.Nodup := by
  rcases step_cases ai st record with ⟨he, _⟩ | ⟨hmem, _, he⟩
  · rw [he]; exact h
  · rw [he]; exact List.nodup_cons.mpr ⟨hmem, h⟩

theorem nodup_foldl (ai : List Char → List Char → List Char → List Char)
    (l : List CandidateRecord) : ∀ st : RunState, st.accessions.Nodup →
    (l.foldl (step ai) st).accessions.Nodup := by
  induction l with
  | nil => intro st h; exact h
  | cons r rest ih =>
      intro st h
      simp only [List.foldl_cons]
      exact ih (step ai st r) (nodup_step ai st r h)

/-! ### The loop's corpus as inserted records plus the old corpus -/

/-- The loop's final corpus is the reversal of the records it inserted,
prepended to the initial corpus. -/
theorem foldl_corpus_eq (ai : List Char → List Char → List Char → List Char)
    (l : List CandidateRecord) : ∀ st : RunState,
    (l.foldl (step ai) st).corpus =
      (insertedRecs ai st.accessions l).reverse ++ st.corpus := by
  induction l with
  | nil => intro st; simp [insertedRecs]
  | cons r rest ih =>
      intro st
      simp only [List.foldl_cons]
      by_cases hmem : r.Accession ∈ st.accessions
      · rw [step_of_mem ai st r hmem, ih st]
        simp [insertedRecs, hmem]
      · by_cases hpre : ("GSE".data).isPrefixOf r.Accession = false
        · rw [step_of_skip ai st r (Or.inl hpre), ih st]
          simp [insertedRecs, hmem, hpre]
        · by_cases hfil : passes_filter r = false
          · rw [step_of_skip ai st r (Or.inr hfil), ih st]
            simp [insertedRecs, hmem, hpre, hfil]
          · have hpre' : ("GSE".data).isPrefixOf r.Accession = true := by
              cases h : ("GSE".data).isPrefixOf r.Accession <;> simp_all
            have hfil' : passes_filter r = true := by
              cases h : passes_filter r <;> simp_all
            rw [step_insert ai st r hmem hpre' hfil',
              ih ⟨curatedOf ai r :: st.corpus, r.Accession :: st.accessions,
                st.newCount + 1⟩]
            have hl : insertedRecs ai st.accessions (r :: rest) =
                curatedOf ai r :: insertedRecs ai (r.Accession :: st.accessions) rest := by
              simp [insertedRecs, hmem, hpre, hfil, parse_record, hpre']
            rw [hl]
            simp

/-- The loop's insertion count is the number of inserted records. -/
theorem foldl_newCount_eq (ai : List Char → List Char → List Char → List Char)
    (l : List CandidateRecord) : ∀ st : RunState,
    (l.foldl (step ai) st).newCount =
      st.newCount + (insertedRecs ai st.accessions l).length := by
  induction l with
  | nil => intro st; simp [insertedRecs]
  | cons r rest ih =>
      intro st
      simp only [List.foldl_cons]
      by_cases hmem : r.Accession ∈ st.accessions
      · rw [step_of_mem ai st r hmem, ih st]
        simp [insertedRecs, hmem]
      · by_cases hpre : ("GSE".data).isPrefixOf r.Accession = false
        · rw [step_of_skip ai st r (Or.inl hpre), ih st]
          simp [insertedRecs, hmem, hpre]
        · by_cases hfil : passes_filter r = false
          · rw [step_of_skip ai st r (Or.inr hfil), ih st]
            simp [insertedRecs, hmem, hpre, hfil]
          · have hpre' : ("GSE".data).isPrefixOf r.Accession = true := by
              cases h : ("GSE".data).isPrefixOf r.Accession <;> simp_all
            have hfil' : passes_filter r = true := by
              cases h : passes_filter r <;> simp_all
            rw [step_insert ai st r hmem hpre' hfil',
              ih ⟨curatedOf ai r :: st.corpus, r.Accession :: st.accessions,
                st.newCount + 1⟩]
            have hl : insertedRecs ai st.accessions (r :: rest) =
                curatedOf ai r :: insertedRecs ai (r.Accession :: st.accessions) rest := by
              simp [insertedRecs, hmem, hpre, hfil, parse_record, hpre']
            rw [hl]
            simp [Nat.add_comm, Nat.add_assoc, Nat.add_left_comm]

/-! ### Digit-run extraction lemmas -/

theorem ic_nil (sep : List Char) :
    List.intercalate sep ([] : List (List Char)) = [] := rfl

theorem ic_single (sep x : List Char) : List.intercalate sep [x] = x := by
  simp [List.intercalate]

theorem ic_cons2 (sep x y : List Char) (rest : List (List Char)) :
    List.intercalate sep (x :: y :: rest) =
      x ++ sep ++ List.intercalate sep (y :: rest) := by
  simp [List.intercalate, List.intersperse, List.append_assoc]

/-- Scanning a block of digits accumulates it into the current run. -/
theorem findRunsAux_digits (x : List Char) :
    ∀ (t cur : List Char), (∀ c ∈ x, c.isDigit = true) →
    findRunsAux (x ++ t) cur = findRunsAux t (x.reverse ++ cur) := by
  induction x with
  | nil => intro t cur _; simp
  | cons c x' ih =>
      intro t cur hx
      have hc : c.isDigit = true := hx c (List.mem_cons_self c x')
      simp only [List.cons_append, findRunsAux, hc, if_true, List.append_eq]
      rw [ih t (c :: cur) fun d hd => hx d (List.mem_cons_of_mem c hd)]
      simp [List.append_assoc]

/-- The separator `"; "` closes the current digit run. -/
theorem findRunsAux_stop (t cur : List Char) (h : cur ≠ []) :
    findRunsAux (';' :: ' ' :: t) cur = cur.reverse :: findRunsAux t [] := by
  have h1 : (';' : Char).isDigit = false := by decide
  have h2 : (' ' : Char).isDigit = false := by decide
  simp [findRunsAux, h1, h2, h]

/-- On a `"; "`-join of nonempty all-digit strings, the digit-run
extraction recovers exactly those strings. -/
theorem findRuns_ic (ids : List (List Char)) :
    ids ≠ [] → (∀ x ∈ ids, x ≠ [] ∧ ∀ c ∈ x, c.isDigit = true) →
    findRuns (List.intercalate "; ".data ids) = ids := by
  induction ids with
  | nil => intro h _; cases h rfl
  | cons x rest ih =>
      intro _ hid
      obtain ⟨hxne, hxd⟩ := hid x (List.mem_cons_self x rest)
      have hrne : x.reverse ≠ [] := by
        intro hc
        exact hxne (by simpa using hc)
      cases rest with
      | nil =>
          rw [ic_single]
          show findRunsAux x [] = [x]
          have h0 := findRunsAux_digits x [] [] hxd
          rw [List.append_nil] at h0
          rw [h0]
          simp [findRunsAux, hrne]
      | cons y rest' =>
          rw [ic_cons2]
          show findRunsAux ((x ++ "; ".data) ++ List.intercalate "; ".data (y :: rest')) [] =
            x :: y :: rest'
          rw [List.append_assoc, findRunsAux_digits x _ [] hxd]
          have hsd : "; ".data ++ List.intercalate "; ".data (y :: rest') =
              ';' :: ' ' :: List.intercalate "; ".data (y :: rest') := rfl
          rw [hsd, findRunsAux_stop _ _ (by simpa using hrne)]
          simp only [List.append_nil, List.reverse_reverse]
          congr 1
          exact ih (by simp) fun z hz => hid z (List.mem_cons_of_mem x hz)

/-- A string with no `I` character has no `IntegerElement(` capture. -/
theorem findIEAux_eq_nil : ∀ (fuel : Nat) (s : List Char),
    (∀ c ∈ s, c ≠ 'I') → findIEAux fuel s = [] := by
  intro fuel
  induction fuel with
  | zero => intro s _; rfl
  | succ n ih =>
      intro s h
      cases s with
      | nil => rfl
      | cons c cs =>
          have hc : c ≠ 'I' := h c (List.mem_cons_self c cs)
          have hpre : iePat.isPrefixOf (c :: cs) = false := by
            have hd : iePat.isPrefixOf (c :: cs) =
                (('I' == c) && ("ntegerElement(".data).isPrefixOf cs) := rfl
            have hb : ('I' == c) = false := beq_eq_false_iff_ne.mpr (Ne.symm hc)
            rw [hd, hb, Bool.false_and]
          simp only [findIEAux, hpre, Bool.false_eq_true, if_false]
          exact ih cs fun d hd => h d (List.mem_cons_of_mem c hd)

/-- A string without any decimal digit has no `IntegerElement(` capture
(the pattern requires at least one digit after the wrapper). -/
theorem findIEAux_noDigit : ∀ (fuel : Nat) (s : List Char),
    (∀ c ∈ s, c.isDigit = false) → findIEAux fuel s = [] := by
  intro fuel
  induction fuel with
  | zero => intro s _; rfl
  | succ n ih =>
      intro s h
      cases s with
      | nil => rfl
      | cons c cs =>
          by_cases hpre : iePat.isPrefixOf (c :: cs) = true
          · have hrun : ((c :: cs).drop iePat.length).takeWhile Char.isDigit = [] := by
              cases hrest : (c :: cs).drop iePat.length with
              | nil => rfl
              | cons d ds =>
                  have hd : d ∈ c :: cs := by
                    refine List.mem_of_mem_drop (n := iePat.length) ?_
                    rw [hrest]
                    exact List.mem_cons_self d ds
                  have hdd : d.isDigit = false := h d hd
                  simp [List.takeWhile_cons, hdd]
            simp only [findIEAux, hpre, if_true, hrun, if_pos rfl]
            exact ih cs fun d hd => h d (List.mem_cons_of_mem c hd)
          · have hpre' : iePat.isPrefixOf (c :: cs) = false := by
              cases hx : iePat.isPrefixOf (c :: cs) <;> simp_all
            simp only [findIEAux, hpre', Bool.false_eq_true, if_false]
            exact ih cs fun d hd => h d (List.mem_cons_of_mem c hd)

/-- A string without any decimal digit yields no digit run. -/
theorem findRunsAux_noDigit : ∀ (s : List Char),
    (∀ c ∈ s, c.isDigit = false) → findRunsAux s [] = [] := by
  intro s
  induction s with
  | nil => intro _; rfl
  | cons c cs ih =>
      intro h
      have hc : c.isDigit = false := h c (List.mem_cons_self c cs)
      simp only [findRunsAux, hc, Bool.false_eq_true, if_false, if_pos rfl]
      exact ih fun d hd => h d (List.mem_cons_of_mem c hd)

/-- Every character of a `"; "`-join is a separator character or comes
from one of the joined strings. -/
theorem mem_ic_chars (ids : List (List Char)) :
    ∀ c ∈ List.intercalate "; ".data ids,
      c = ';' ∨ c = ' ' ∨ ∃ x ∈ ids, c ∈ x := by
  induction ids with
  | nil =>
      intro c hc
      rw [ic_nil] at hc
      cases hc
  | cons x rest ih =>
      cases rest with
      | nil =>
          intro c hc
          rw [ic_single] at hc
          exact Or.inr (Or.inr ⟨x, List.mem_cons_self x [], hc⟩)
      | cons y rest' =>
          intro c hc
          rw [ic_cons2] at hc
          rcases List.mem_append.mp hc with hc1 | hc2
          · rcases List.mem_append.mp hc1 with hx | hsep
            · exact Or.inr (Or.inr ⟨x, List.mem_cons_self x _, hx⟩)
            · have hsd : "; ".data = [';', ' '] := rfl
              rw [hsd] at hsep
              simp only [List.mem_cons, List.not_mem_nil, or_false] at hsep
              rcases hsep with h | h
              · exact Or.inl h
              · exact Or.inr (Or.inl h)
          · rcases ih c hc2 with h | h | ⟨z, hz, hcz⟩
            · exact Or.inl h
            · exact Or.inr (Or.inl h)
            · exact Or.inr (Or.inr ⟨z, List.mem_cons_of_mem x hz, hcz⟩)

/-! ### Claim theorems -/

/-- C1: `passes_filter` returns true exactly when the case-normalized
title-plus-summary haystack contains at least one require-keyword and no
exclude-keyword as a substring; in particular, when both a
require-keyword and an exclude-keyword are present it returns false. -/
theorem c1_filter_characterization :
    (∀ record : CandidateRecord,
      passes_filter record = true ↔
        ((∃ kw ∈ require_keywords, kw <:+: haystack record) ∧
          ∀ kw ∈ exclude_keywords, ¬ kw <:+: haystack record)) ∧
    (∀ record : CandidateRecord,
      (∃ kw ∈ require_keywords, kw <:+: haystack record) →
      (∃ kw ∈ exclude_keywords, kw <:+: haystack record) →
      passes_filter record = false) := by
  have key : ∀ record : CandidateRecord,
      passes_filter record = true ↔
        ((∃ kw ∈ require_keywords, kw <:+: haystack record) ∧
          ∀ kw ∈ exclude_keywords, ¬ kw <:+: haystack record) := by
    intro record
    constructor
    · intro h
      cases hreq : require_keywords.any (fun kw => containsSub kw (haystack record)) with
      | false => simp [passes_filter, hreq] at h
      | true =>
        cases hexc : exclude_keywords.any (fun kw => containsSub kw (haystack record)) with
        | true => simp [passes_filter, hreq, hexc] at h
        | false =>
          refine ⟨?_, ?_⟩
          · obtain ⟨kw, hmem, hc⟩ := List.any_eq_true.mp hreq
            exact ⟨kw, hmem, (containsSub_iff kw _).mp hc⟩
          · intro kw hmem hinf
            have : exclude_keywords.any (fun kw => containsSub kw (haystack record)) = true :=
              List.any_eq_true.mpr ⟨kw, hmem, (containsSub_iff kw _).mpr hinf⟩
            rw [this] at hexc
            cases hexc
    · rintro ⟨⟨kw, hmem, hinf⟩, hnone⟩
      have hreq : require_keywords.any (fun kw => containsSub kw (haystack record)) = true :=
        List.any_eq_true.mpr ⟨kw, hmem, (containsSub_iff kw _).mpr hinf⟩
      have hexc : exclude_keywords.any (fun kw => containsSub kw (haystack record)) = false := by
        cases hexc : exclude_keywords.any (fun kw => containsSub kw (haystack record)) with
        | false => rfl
        | true =>
          obtain ⟨kw', hmem', hc'⟩ := List.any_eq_true.mp hexc
          exact absurd ((containsSub_iff kw' _).mp hc') (hnone kw' hmem')
      simp [passes_filter, hreq, hexc]
  refine ⟨key, ?_⟩
  intro record hre hexc
  cases h : passes_filter record with
  | false => rfl
  | true =>
    obtain ⟨kw, hmem, hinf⟩ := hexc
    exact absurd hinf (((key record).mp h).2 kw hmem)

/-- C1 witness: a concrete record containing both `hair follicle` and
`ovary` is rejected. -/
theorem c1_witness : passes_filter candBoth = false := by
  refine c1_filter_characterization.2 candBoth ?_ ?_
  · exact ⟨"hair follicle".data, by decide, (containsSub_iff _ _).mp (by decide)⟩
  · exact ⟨"ovary".data, by decide, (containsSub_iff _ _).mp (by decide)⟩

/-- C6: the Normalizer returns `none` exactly when the accession does
not begin with `GSE`, and returns a curated record for every other
candidate. -/
theorem c6_normalizer_gse_gate
    (ai : List Char → List Char → List Char → List Char)
    (record : CandidateRecord) :
    (parse_record ai record = none ↔ ¬ "GSE".data <+: record.Accession) ∧
    ("GSE".data <+: record.Accession →
      parse_record ai record = some (curatedOf ai record)) := by
  by_cases h : ("GSE".data).isPrefixOf record.Accession = true
  · have hp : "GSE".data <+: record.Accession := by simpa using h
    refine ⟨⟨?_, ?_⟩, ?_⟩
    · intro hn
      rw [parse_record_of_GSE ai record h] at hn
      cases hn
    · intro hnp
      exact absurd hp hnp
    · intro _
      exact parse_record_of_GSE ai record h
  · have hb : ("GSE".data).isPrefixOf record.Accession = false := by
      cases hx : ("GSE".data).isPrefixOf record.Accession <;> simp_all
    have hp : ¬ "GSE".data <+: record.Accession := by
      intro hc
      exact h (by simpa using hc)
    refine ⟨⟨?_, ?_⟩, ?_⟩
    · intro _
      exact hp
    · intro _
      simp [parse_record, hb]
    · intro hc
      exact absurd hc hp

/-- C6 witness: a `GSE` candidate yields a curated record. -/
theorem c6_witness : parse_record aiEmpty candA = some (curatedOf aiEmpty candA) :=
  (c6_normalizer_gse_gate aiEmpty candA).2 (by decide)

/-- C8: `save_data` is invoked exactly when at least one insertion
occurred; a run that saved nothing leaves the persisted corpus
untouched (including the empty-id-list run). -/
theorem c8_save_iff_insertion (email : List Char) (existing : List CuratedRecord)
    (idList : List (List Char)) (summaries : List CandidateRecord)
    (ai : List Char → List Char → List Char → List Char) :
    ((main email existing idList summaries ai).saved = true ↔
      0 < (main email existing idList summaries ai).newCount) ∧
    ((main email existing idList summaries ai).saved = false →
      (main email existing idList summaries ai).persisted = existing) := by
  by_cases hemail : email = []
  · simp [main, hemail]
  · by_cases hid : idList = []
    · simp [main, hemail, hid]
    · by_cases hpos : 0 <
        (summaries.foldl (step ai) ⟨existing, existing.map (·.Accession), 0⟩ : RunState).newCount
      · simp [main, hemail, hid, hpos]
      · simp [main, hemail, hid, hpos]

/-- C8 witness: a run with an empty id list saves nothing and leaves
the corpus as loaded. -/
theorem c8_witness :
    (main "e".data ([candGSEabc, candA].map (curatedOf aiEmpty)) ["1".data] [candA] aiEmpty).persisted =
      [candGSEabc, candA].map (curatedOf aiEmpty) :=
  (c8_save_iff_insertion "e".data ([candGSEabc, candA].map (curatedOf aiEmpty))
    ["1".data] [candA] aiEmpty).2 (by decide)

/-- C9: with the mandatory `NCBI_EMAIL` credential absent, `main`
aborts before any network call or corpus mutation: no search, no fetch,
no insertion, no save, and the persisted corpus is untouched. -/
theorem c9_missing_email_aborts (existing : List CuratedRecord)
    (idList : List (List Char)) (summaries : List CandidateRecord)
    (ai : List Char → List Char → List Char → List Char) :
    main [] existing idList summaries ai =
      { searched := false, fetched := false, saved := false,
        persisted := existing, newCount := 0 } := rfl

/-- C10: the Normalizer's acceptance test is prefix-only — every
accession starting with `GSE` yields a curated record, digits are never
validated, and the digitless accession `GSEabc` is inserted into the
corpus by the loop. -/
theorem c10_prefix_only_acceptance :
    (∀ (ai : List Char → List Char → List Char → List Char)
        (record : CandidateRecord),
      ("GSE".data).isPrefixOf record.Accession = true →
      (parse_record ai record).isSome = true) ∧
    (parse_record aiEmpty candGSEabc).isSome = true ∧
    step aiEmpty ⟨[], [], 0⟩ candGSEabc =
      ⟨[curatedOf aiEmpty candGSEabc], [candGSEabc.Accession], 1⟩ := by
  refine ⟨?_, by decide, ?_⟩
  · intro ai record h
    rw [parse_record_of_GSE ai record h]
    rfl
  · exact step_insert aiEmpty ⟨[], [], 0⟩ candGSEabc (by decide) (by decide) (by decide)

/-- C10 witness: `GSEabc` (no digits after the prefix) is accepted. -/
theorem c10_witness : (parse_record aiEmpty candGSEabc).isSome = true :=
  c10_prefix_only_acceptance.1 aiEmpty candGSEabc (by decide)

/-- C2: re-running the pipeline against the same external source and
the corpus persisted by the first run inserts nothing, never saves, and
leaves the persisted corpus unchanged — for any summarization behavior
on either run. -/
theorem c2_second_run_idempotent (email : List Char) (existing : List CuratedRecord)
    (idList : List (List Char)) (summaries : List CandidateRecord)
    (ai1 ai2 : List Char → List Char → List Char → List Char) :
    (main email (main email existing idList summaries ai1).persisted
        idList summaries ai2).newCount = 0 ∧
    (main email (main email existing idList summaries ai1).persisted
        idList summaries ai2).saved = false ∧
    (main email (main email existing idList summaries ai1).persisted
        idList summaries ai2).persisted =
      (main email existing idList summaries ai1).persisted := by
  by_cases hemail : email = []
  · simp [main, hemail]
  · by_cases hid : idList = []
    · simp [main, hemail, hid]
    · by_cases hpos : 0 <
        (summaries.foldl (step ai1) ⟨existing, existing.map (·.Accession), 0⟩ : RunState).newCount
      · have ho1 : (main email existing idList summaries ai1).persisted =
            (summaries.foldl (step ai1)
              ⟨existing, existing.map (·.Accession), 0⟩ : RunState).corpus := by
          simp [main, hemail, hid, hpos]
        set st1 := summaries.foldl (step ai1)
          (⟨existing, existing.map (·.Accession), 0⟩ : RunState) with hst1
        have hinv : Inv st1 := inv_foldl ai1 summaries _ rfl
        have hskip : ∀ record ∈ summaries, skipIndep record ∨
            record.Accession ∈
              (⟨st1.corpus, st1.corpus.map (·.Accession), 0⟩ : RunState).accessions := by
          intro record hr
          rcases mem_or_skip ai1 summaries
              ⟨existing, existing.map (·.Accession), 0⟩ record hr with h | h
          · exact Or.inl h
          · right
            show record.Accession ∈ st1.corpus.map (·.Accession)
            rw [← hinv]
            exact h
        have hfold2 : summaries.foldl (step ai2)
            ⟨st1.corpus, st1.corpus.map (·.Accession), 0⟩ =
            ⟨st1.corpus, st1.corpus.map (·.Accession), 0⟩ :=
          foldl_id_of ai2 summaries _ hskip
        rw [ho1]
        simp [main, hemail, hid, hfold2]
      · have hc0 : (summaries.foldl (step ai1)
            ⟨existing, existing.map (·.Accession), 0⟩ : RunState).newCount =
            (⟨existing, existing.map (·.Accession), 0⟩ : RunState).newCount := by
          have hz : (⟨existing, existing.map (·.Accession), 0⟩ : RunState).newCount = 0 := rfl
          omega
        have hms := mem_or_skip_of_count ai1 summaries
          ⟨existing, existing.map (·.Accession), 0⟩ hc0
        have hfold2 : summaries.foldl (step ai2)
            ⟨existing, existing.map (·.Accession), 0⟩ =
            ⟨existing, existing.map (·.Accession), 0⟩ :=
          foldl_id_of ai2 summaries _ hms
        have ho1 : (main email existing idList summaries ai1).persisted = existing := by
          simp [main, hemail, hid, hpos]
        rw [ho1]
        simp [main, hemail, hid, hfold2]

/-- C3: if the loaded corpus has pairwise-distinct accessions, the
corpus persisted by the run still does; a candidate whose accession is
already registered is always skipped. -/
theorem c3_accessions_stay_distinct (email : List Char) (existing : List CuratedRecord)
    (idList : List (List Char)) (summaries : List CandidateRecord)
    (ai : List Char → List Char → List Char → List Char)
    (h : (existing.map (·.Accession)).Nodup) :
    ((main email existing idList summaries ai).persisted.map (·.Accession)).Nodup ∧
    ∀ (st : RunState) (record : CandidateRecord),
      record.Accession ∈ st.accessions → step ai st record = st := by
  refine ⟨?_, fun st record hm => step_of_mem ai st record hm⟩
  by_cases hemail : email = []
  · simpa [main, hemail] using h
  · by_cases hid : idList = []
    · simpa [main, hemail, hid] using h
    · by_cases hpos : 0 <
        (summaries.foldl (step ai) ⟨existing, existing.map (·.Accession), 0⟩ : RunState).newCount
      · have hinv : Inv (summaries.foldl (step ai)
            ⟨existing, existing.map (·.Accession), 0⟩) :=
          inv_foldl ai summaries _ rfl
        have hnd : (summaries.foldl (step ai)
            ⟨existing, existing.map (·.Accession), 0⟩ : RunState).accessions.Nodup :=
          nodup_foldl ai summaries _ h
        have hm : (main email existing idList summaries ai).persisted =
            (summaries.foldl (step ai)
              ⟨existing, existing.map (·.Accession), 0⟩ : RunState).corpus := by
          simp [main, hemail, hid, hpos]
        rw [hm, ← hinv]
        exact hnd
      · simpa [main, hemail, hid, hpos] using h

/-- C3 witness: a concrete run (with one candidate appearing twice)
keeps accessions pairwise distinct. -/
theorem c3_witness :
    ((main "e".data [] ["1".data] [candA, candA, candB] aiEmpty).persisted.map
      (·.Accession)).Nodup :=
  (c3_accessions_stay_distinct "e".data [] ["1".data] [candA, candA, candB]
    aiEmpty (by decide)).1

/-- C4: the loop prepends: the final corpus is the reversal of the
inserted records followed by the old corpus, so of two inserted
candidates the later-processed one occupies the earlier index, and
pre-existing records keep their relative order after the new ones. -/
theorem c4_prepend_order (email : List Char) (existing : List CuratedRecord)
    (idList : List (List Char)) (summaries : List CandidateRecord)
    (ai : List Char → List Char → List Char → List Char)
    (hemail : email ≠ []) (hid : idList ≠ []) :
    let ins := insertedRecs ai (existing.map (·.Accession)) summaries
    let final := (main email existing idList summaries ai).persisted
    (0 < ins.length → final = ins.reverse ++ existing) ∧
    (∀ i j : Nat, i < j → j < ins.length →
      final[ins.length - 1 - j]? = ins[j]? ∧
      final[ins.length - 1 - i]? = ins[i]? ∧
      ins.length - 1 - j < ins.length - 1 - i) ∧
    (0 < ins.length → ∀ m : Nat, final[ins.length + m]? = existing[m]?) := by
  intro ins final
  have hcorpus : (summaries.foldl (step ai)
      ⟨existing, existing.map (·.Accession), 0⟩ : RunState).corpus =
      ins.reverse ++ existing :=
    foldl_corpus_eq ai summaries ⟨existing, existing.map (·.Accession), 0⟩
  have hcount : (summaries.foldl (step ai)
      ⟨existing, existing.map (·.Accession), 0⟩ : RunState).newCount =
      0 + ins.length :=
    foldl_newCount_eq ai summaries ⟨existing, existing.map (·.Accession), 0⟩
  have hfin : 0 < ins.length → final = ins.reverse ++ existing := by
    intro hl
    have hpos : 0 < (summaries.foldl (step ai)
        ⟨existing, existing.map (·.Accession), 0⟩ : RunState).newCount := by
      omega
    show (main email existing idList summaries ai).persisted = ins.reverse ++ existing
    rw [show (main email existing idList summaries ai).persisted =
        (summaries.foldl (step ai)
          ⟨existing, existing.map (·.Accession), 0⟩ : RunState).corpus by
      simp [main, hemail, hid, hpos]]
    exact hcorpus
  refine ⟨hfin, ?_, ?_⟩
  · intro i j hij hj
    have hl : 0 < ins.length := by omega
    have hf := hfin hl
    have hrevlen : ins.reverse.length = ins.length := List.length_reverse ins
    refine ⟨?_, ?_, by omega⟩
    · rw [hf, List.getElem?_append_left (by omega),
        List.getElem?_reverse (by omega)]
      congr 1
      omega
    · rw [hf, List.getElem?_append_left (by omega),
        List.getElem?_reverse (by omega)]
      congr 1
      omega
  · intro hl m
    rw [hfin hl]
    have hrevlen : ins.reverse.length = ins.length := List.length_reverse ins
    rw [List.getElem?_append_right (by omega)]
    congr 1
    omega

/-- C4 witness: processing A (`GSE100001`) then B (`GSE100002`) into an
empty corpus puts B at index 0 and A at index 1. -/
theorem c4_witness :
    ((main "e".data [] ["1".data] [candA, candB] aiEmpty).persisted)[(0 : Nat)]? =
      (insertedRecs aiEmpty [] [candA, candB])[(1 : Nat)]? ∧
    ((main "e".data [] ["1".data] [candA, candB] aiEmpty).persisted)[(1 : Nat)]? =
      (insertedRecs aiEmpty [] [candA, candB])[(0 : Nat)]? ∧
    (0 : Nat) < 1 :=
  (c4_prepend_order "e".data [] ["1".data] [candA, candB] aiEmpty
    (by decide) (by decide)).2.1 0 1 (by decide) (by decide)

/-- C7: when the summarization collaborator fails (exception, non-200
status, unextractable payload) or its key is absent, the curated record
still carries the candidate's accession, title and organism, both AI
summary fields are the empty string, and the record is still inserted
by the loop — the failure never aborts the run. -/
theorem c7_summary_failure_degrades (apiKey : List Char) (resp : HttpOutcome)
    (record : CandidateRecord) (hfail : aiFails apiKey resp)
    (hpre : ("GSE".data).isPrefixOf record.Accession = true) :
    parse_record (fun _ _ _ => generate_ai_summary apiKey resp) record =
      some (curatedOf (fun _ _ _ => generate_ai_summary apiKey resp) record) ∧
    (curatedOf (fun _ _ _ => generate_ai_summary apiKey resp) record).AI_Summary_CN = [] ∧
    (curatedOf (fun _ _ _ => generate_ai_summary apiKey resp) record).AI_Summary = [] ∧
    (curatedOf (fun _ _ _ => generate_ai_summary apiKey resp) record).Accession =
      record.Accession ∧
    (curatedOf (fun _ _ _ => generate_ai_summary apiKey resp) record).Title =
      record.title ∧
    (curatedOf (fun _ _ _ => generate_ai_summary apiKey resp) record).Organism =
      record.taxon ∧
    ∀ st : RunState, record.Accession ∉ st.accessions →
      passes_filter record = true →
      step (fun _ _ _ => generate_ai_summary apiKey resp) st record =
        ⟨curatedOf (fun _ _ _ => generate_ai_summary apiKey resp) record :: st.corpus,
          record.Accession :: st.accessions, st.newCount + 1⟩ := by
  have hgen : generate_ai_summary apiKey resp = [] := by
    rcases hfail with h | h | ⟨status, payload, hr, hne⟩
    · simp [generate_ai_summary, h]
    · subst h
      by_cases hk : apiKey = [] <;> simp [generate_ai_summary, hk]
    · subst hr
      by_cases hk : apiKey = [] <;> simp [generate_ai_summary, hk, hne]
  exact ⟨parse_record_of_GSE _ record hpre, hgen, hgen, rfl, rfl, rfl,
    fun st hm hf => step_insert _ st record hm hpre hf⟩

/-- C7 witness: with no API key and a network exception, both AI
summary fields of the curated record are empty. -/
theorem c7_witness :
    (curatedOf (fun _ _ _ => generate_ai_summary [] HttpOutcome.exn)
      candA).AI_Summary_CN = [] ∧
    (curatedOf (fun _ _ _ => generate_ai_summary [] HttpOutcome.exn)
      candA).AI_Summary = [] :=
  ⟨(c7_summary_failure_degrades [] HttpOutcome.exn candA (Or.inl rfl)
      (by decide)).2.1,
   (c7_summary_failure_degrades [] HttpOutcome.exn candA (Or.inl rfl)
      (by decide)).2.2.1⟩

/-- C5 counterexample: the claim fails at two concrete inputs. On the
digitless representation `"abc"` the cleaned field is `"abc"` itself,
not the `"; "`-join of the (empty) list of decimal-digit runs; and on
`"IntegerElement(12)x34"` the cleaned field is `"12"` (only the wrapper
capture), not the `"; "`-join `"12; 34"` of all decimal-digit runs of
the representation. -/
theorem c5_counterexample :
    clean_pubmed_ids "abc".data = "abc".data ∧
    findRuns "abc".data = [] ∧
    findIE "abc".data = [] ∧
    clean_pubmed_ids "abc".data ≠
      List.intercalate "; ".data (findRuns "abc".data) ∧
    findRuns "IntegerElement(12)x34".data = ["12".data, "34".data] ∧
    clean_pubmed_ids "IntegerElement(12)x34".data = "12".data ∧
    clean_pubmed_ids "IntegerElement(12)x34".data ≠
      List.intercalate "; ".data (findRuns "IntegerElement(12)x34".data) := by
  refine ⟨by decide, by decide, by decide, by decide, by decide, by decide, by decide⟩

/-- C5 amended: for every raw representation, the extracted digit runs
are the captures following `IntegerElement(` wrappers when at least one
such capture is present, and otherwise all maximal decimal-digit runs;
whenever at least one run is extracted the cleaned field equals the
`"; "`-join of the extracted runs, and a representation containing no
decimal digit is returned verbatim (the empty representation as the
empty string). Consequently the direct-list shape (a `"; "`-join of
decimal identifiers) round-trips unchanged, and the wrapper shape with
`IntegerElement(12345)` followed by `IntegerElement(67890)` cleans to
exactly `"12345; 67890"`. -/
theorem c5_amended :
    (∀ s : List Char, findIE s ≠ [] →
      clean_pubmed_ids s = List.intercalate "; ".data (findIE s)) ∧
    (∀ s : List Char, findIE s = [] → findRuns s ≠ [] →
      clean_pubmed_ids s = List.intercalate "; ".data (findRuns s)) ∧
    (∀ s : List Char, (∀ c ∈ s, c.isDigit = false) → s ≠ [] →
      clean_pubmed_ids s = s) ∧
    clean_pubmed_ids [] = [] ∧
    (∀ ids : List (List Char), ids ≠ [] →
      (∀ x ∈ ids, x ≠ [] ∧ ∀ c ∈ x, c.isDigit = true) →
      clean_pubmed_ids (List.intercalate "; ".data ids) =
        List.intercalate "; ".data ids) ∧
    clean_pubmed_ids "[IntegerElement(12345), IntegerElement(67890)]".data =
      "12345; 67890".data ∧
    clean_pubmed_ids "abc7def8".data = "7; 8".data ∧
    clean_pubmed_ids "IntegerElement(12)x34".data = "12".data := by
  refine ⟨?_, ?_, ?_, rfl, ?_, by decide, by decide, by decide⟩
  · intro s h
    have hs : s ≠ [] := by
      intro he
      subst he
      exact h rfl
    simp [clean_pubmed_ids, hs, h]
  · intro s h1 h2
    have hs : s ≠ [] := by
      intro he
      subst he
      exact h2 rfl
    simp [clean_pubmed_ids, hs, h1, h2]
  · intro s hnd hs
    have hIE : findIE s = [] := findIEAux_noDigit s.length s hnd
    have hR : findRuns s = [] := findRunsAux_noDigit s hnd
    simp [clean_pubmed_ids, hs, hIE, hR]
  · intro ids hne hid
    have hsne : List.intercalate "; ".data ids ≠ [] := by
      cases ids with
      | nil => cases hne rfl
      | cons x rest =>
          obtain ⟨hxne, _⟩ := hid x (List.mem_cons_self x rest)
          cases rest with
          | nil =>
              rw [ic_single]
              exact hxne
          | cons y rest' =>
              rw [ic_cons2]
              intro hc
              exact hxne (List.append_eq_nil.mp (List.append_eq_nil.mp hc).1).1
    have hIE : findIE (List.intercalate "; ".data ids) = [] := by
      refine findIEAux_eq_nil _ _ ?_
      intro c hc
      rcases mem_ic_chars ids c hc with h | h | ⟨x, hx, hcx⟩
      · subst h; decide
      · subst h; decide
      · obtain ⟨_, hxd⟩ := hid x hx
        have hcd := hxd c hcx
        intro hcI
        subst hcI
        exact absurd hcd (by decide)
    have hruns : findRuns (List.intercalate "; ".data ids) = ids :=
      findRuns_ic ids hne hid
    simp [clean_pubmed_ids, hIE, hruns, hsne, hne]

/-- C5 witness: the direct-list representation `"12; 345"` round-trips
through the cleaner. -/
theorem c5_witness :
    clean_pubmed_ids (List.intercalate "; ".data ["12".data, "345".data]) =
      List.intercalate "; ".data ["12".data, "345".data] :=
  c5_amended.2.2.2.2.1 ["12".data, "345".data] (by decide) (by decide)

end GeoHair
